import Mathlib

/-!
Verification development for the numerical signal-processing engine of a
seismic-waveform pipeline.  The engine's stages — peak extraction, Fourier
amplitude spectra, frequency-domain integration, and SDOF response spectra —
are embedded shallowly: Python/NumPy array code becomes Lean functions over
`List ℝ`, complex DFT bins become functions `ℕ → ℂ` given by the DFT sum,
and NumPy's fail-on-bad-input behaviour becomes `Except`-valued variants.
-/

/-- Maximum of a list of reals, mirroring `np.max` over a nonempty array.
The value on `[]` is junk (`np.max` raises there); it is only ever used on
nonempty lists. -/
noncomputable def listMax : List ℝ → ℝ
  | [] => 0
  | [x] => x
  | x :: y :: ys => max x (listMax (y :: ys))

/-- Arithmetic mean of a list of reals, mirroring `np.mean` (division by the
length; `0/0 = 0` on the empty list). -/
noncomputable def listMean (l : List ℝ) : ℝ := l.sum / l.length

/-- Index of the first occurrence of the maximum of a list, mirroring
`np.argmax` (which scans in order and keeps the first maximal element).
On `[]` the value is junk (`np.argmax` raises there). -/
noncomputable def argmaxIdx : List ℝ → ℕ
  | [] => 0
  | [_] => 0
  | x :: y :: ys => if x < listMax (y :: ys) then argmaxIdx (y :: ys) + 1 else 0

/-- Real-input discrete Fourier transform bin `k` of a series, mirroring
`np.fft.rfft(data, n=m)`: the series is zero-padded (or truncated) to length
`m` and bin `k` is the DFT sum.  `List.getD _ _ 0` realises the zero padding. -/
noncomputable def rfft (data : List ℝ) (m : ℕ) (k : ℕ) : ℂ :=
  ∑ j ∈ Finset.range m,
    (data.getD j 0 : ℂ) *
      Complex.exp (-(2 * (Real.pi : ℂ) * Complex.I * j * k) / m)

/-- Inverse real-input DFT sample `t`, mirroring `np.fft.irfft(G, n=m)`: the
half spectrum `G` (bins `0 .. m/2`) is extended Hermitely to a full spectrum
and the inverse DFT's real part is taken. -/
noncomputable def irfft (G : ℕ → ℂ) (m : ℕ) (t : ℕ) : ℝ :=
  ((1 : ℝ) / m) *
    (∑ k ∈ Finset.range m,
      (if k ≤ m / 2 then G k else (starRingEnd ℂ) (G (m - k))) *
        Complex.exp (2 * (Real.pi : ℂ) * Complex.I * k * t / m)).re

/-- Frequency grid of `np.fft.rfftfreq(n, d=dt)`: `f_k = k / (n·dt)` for
`k = 0 .. ⌊n/2⌋`. -/
noncomputable def rfftfreq (n : ℕ) (dt : ℝ) : List ℝ :=
  (List.range (n / 2 + 1)).map (fun (k : ℕ) => (k : ℝ) / (n * dt))

/-- Amplitude array of `calculate_fourier_spectrum`: `|rfft| * dt * 2` at
every bin, then the DC bin is halved in place, and, when `n` is even, the
last (Nyquist) bin is halved in place. -/
noncomputable def fourier_amplitude (data : List ℝ) (sampling_rate : ℝ) : List ℝ :=
  let n := data.length
  let dt := 1 / sampling_rate
  let amplitude :=
    (List.range (n / 2 + 1)).map (fun k => Complex.abs (rfft data n k) * dt * 2)
  let amplitude := amplitude.set 0 (amplitude.getD 0 0 / 2)
  let amplitude :=
    if n % 2 = 0 then
      amplitude.set (amplitude.length - 1) (amplitude.getD (amplitude.length - 1) 0 / 2)
    else amplitude
  amplitude

/-- Embedding of `calculate_fourier_spectrum(data, sampling_rate)`: the
frequency grid and the normalised single-sided amplitude spectrum. -/
noncomputable def calculate_fourier_spectrum (data : List ℝ) (sampling_rate : ℝ) :
    List ℝ × List ℝ :=
  (rfftfreq data.length (1 / sampling_rate), fourier_amplitude data sampling_rate)

/-- Signed peak of a series, mirroring `calc_signed_peak`: the sample value
(with its sign) at `np.argmax(np.abs(data))`. -/
noncomputable def calc_signed_peak (data : List ℝ) : ℝ :=
  data.getD (argmaxIdx (data.map (fun x => |x|))) 0

/-- Error kinds of the engine (spec §7). -/
inductive ErrorKind | invalidInput | numericFailure deriving DecidableEq

/-- NumPy shape compatibility for two 1-D arrays: equal lengths, or one of
the lengths is 1 (a length-1 array broadcasts against the other). -/
def bcastOK (n m : ℕ) : Prop := n = m ∨ n = 1 ∨ m = 1

instance (n m : ℕ) : Decidable (bcastOK n m) := by
  unfold bcastOK
  exact inferInstance

/-- Length of the broadcast of two compatible 1-D arrays. -/
def bcastLen (n m : ℕ) : ℕ := if n = 1 then m else n

/-- Element `i` of a 1-D array viewed under broadcasting: a length-1 array
repeats its single element. -/
noncomputable def bcastGet (l : List ℝ) (i : ℕ) : ℝ :=
  if l.length = 1 then l.getD 0 0 else l.getD i 0

/-- Elementwise binary operation of two 1-D arrays under NumPy broadcasting
(meaningful on the `bcastOK` case, which callers check). -/
noncomputable def bcast2 (f : ℝ → ℝ → ℝ) (a b : List ℝ) : List ℝ :=
  (List.range (bcastLen a.length b.length)).map
    (fun i => f (bcastGet a i) (bcastGet b i))

/-- Peak horizontal value `np.max(np.sqrt(ns**2 + ew**2))`, mirroring
`calc_peak_horizontal` on the inputs where NumPy does not raise. -/
noncomputable def calc_peak_horizontal (ns ew : List ℝ) : ℝ :=
  listMax
    ((bcast2 (fun x y => x + y)
        (ns.map (fun x => x ^ 2)) (ew.map (fun x => x ^ 2))).map Real.sqrt)

/-- Peak three-component value `np.max(np.sqrt(ns**2 + ew**2 + ud**2))`,
mirroring `calc_peak_total` on the inputs where NumPy does not raise. -/
noncomputable def calc_peak_total (ns ew ud : List ℝ) : ℝ :=
  listMax
    ((bcast2 (fun x y => x + y)
        (bcast2 (fun x y => x + y)
          (ns.map (fun x => x ^ 2)) (ew.map (fun x => x ^ 2)))
        (ud.map (fun x => x ^ 2))).map Real.sqrt)

/-- Fallible variant of `calc_signed_peak`: `np.argmax` raises on an empty
array; the NumPy error is modelled as `InvalidInput`. -/
noncomputable def calc_signed_peakE (data : List ℝ) : Except ErrorKind ℝ :=
  if data.isEmpty then .error .invalidInput else .ok (calc_signed_peak data)

/-- Fallible variant of `calc_peak_horizontal`: `ns**2 + ew**2` raises on
broadcast-incompatible shapes and `np.max` raises on an empty result; both
NumPy errors are modelled as `InvalidInput`. -/
noncomputable def calc_peak_horizontalE (ns ew : List ℝ) : Except ErrorKind ℝ :=
  if bcastOK ns.length ew.length then
    if bcastLen ns.length ew.length = 0 then .error .invalidInput
    else .ok (calc_peak_horizontal ns ew)
  else .error .invalidInput

/-- Fallible variant of `calc_peak_total`: the two elementwise sums raise on
broadcast-incompatible shapes and `np.max` raises on an empty result; the
NumPy errors are modelled as `InvalidInput`. -/
noncomputable def calc_peak_totalE (ns ew ud : List ℝ) : Except ErrorKind ℝ :=
  if bcastOK ns.length ew.length then
    if bcastOK (bcastLen ns.length ew.length) ud.length then
      if bcastLen (bcastLen ns.length ew.length) ud.length = 0 then .error .invalidInput
      else .ok (calc_peak_total ns ew ud)
    else .error .invalidInput
  else .error .invalidInput

/-- Length alignment in `process_nied_station`: the three component series
are truncated to `num_samples = min(len(ew), len(ns), len(ud))`. -/
def trim_components (ew ns ud : List ℝ) : List ℝ × List ℝ × List ℝ :=
  let num_samples := min (min ew.length ns.length) ud.length
  (ew.take num_samples, ns.take num_samples, ud.take num_samples)

/-- Peak metadata computed by `process_nied_station` after trimming: signed
peaks of NS, EW, UD, then the horizontal and total combined peaks, all over
the trimmed series. -/
noncomputable def process_nied_peaks (ew ns ud : List ℝ) : ℝ × ℝ × ℝ × ℝ × ℝ :=
  let t := trim_components ew ns ud
  (calc_signed_peak t.2.1, calc_signed_peak t.1, calc_signed_peak t.2.2,
    calc_peak_horizontal t.2.1 t.1, calc_peak_total t.2.1 t.1 t.2.2)

/-- Angular-frequency grid of the integrator `integrate_fft_padded`, with the
DC entry replaced by `1.0` before any division (`omega[0] = 1.0`). -/
noncomputable def integ_omega (n_padded : ℕ) (dt : ℝ) (k : ℕ) : ℝ :=
  if k = 0 then 1 else 2 * Real.pi * ((k : ℝ) / (n_padded * dt))

/-- Velocity spectrum of the integrator before the DC override:
`V_k = A_k / (i·ω_k)`. -/
noncomputable def integ_fft_vel_raw (data : List ℝ) (n_padded : ℕ) (dt : ℝ) (k : ℕ) : ℂ :=
  rfft data n_padded k / (Complex.I * (integ_omega n_padded dt k : ℂ))

/-- Displacement spectrum of the integrator before the DC override:
`D_k = V_k / (i·ω_k)`. -/
noncomputable def integ_fft_disp_raw (data : List ℝ) (n_padded : ℕ) (dt : ℝ) (k : ℕ) : ℂ :=
  integ_fft_vel_raw data n_padded dt k / (Complex.I * (integ_omega n_padded dt k : ℂ))

/-- Velocity spectrum after the explicit DC kill `fft_vel[0] = 0`. -/
noncomputable def integ_fft_vel (data : List ℝ) (n_padded : ℕ) (dt : ℝ) (k : ℕ) : ℂ :=
  if k = 0 then 0 else integ_fft_vel_raw data n_padded dt k

/-- Displacement spectrum after the explicit DC kill `fft_disp[0] = 0`. -/
noncomputable def integ_fft_disp (data : List ℝ) (n_padded : ℕ) (dt : ℝ) (k : ℕ) : ℂ :=
  if k = 0 then 0 else integ_fft_disp_raw data n_padded dt k

/-- Embedding of `integrate_fft_padded(data, sampling_rate, pad_factor)`:
zero-pad to `pad_factor·n`, integrate twice in the frequency domain (with
the DC guard and DC kill), inverse-transform, truncate to the original
length, and remove the residual mean from each series. -/
noncomputable def integrate_fft_padded (data : List ℝ) (sampling_rate : ℝ)
    (pad_factor : ℕ) : List ℝ × List ℝ :=
  let n_original := data.length
  let n_padded := pad_factor * n_original
  let dt := 1 / sampling_rate
  let velocity_padded :=
    (List.range n_padded).map (irfft (integ_fft_vel data n_padded dt) n_padded)
  let displacement_padded :=
    (List.range n_padded).map (irfft (integ_fft_disp data n_padded dt) n_padded)
  let velocity := velocity_padded.take n_original
  let displacement := displacement_padded.take n_original
  let velocity := velocity.map (fun x => x - listMean velocity)
  let displacement := displacement.map (fun x => x - listMean displacement)
  (velocity, displacement)

/-- SDOF displacement transfer function
`H(ω) = -1 / (ω_n² - ω² + 2·i·h·ω_n·ω)` with `ω = 2π·freq`, mirroring
`sdof_transfer_function`. -/
noncomputable def sdof_transfer_function (freq : ℝ) (omega_n : ℝ) (h : ℝ) : ℂ :=
  let omega := 2 * Real.pi * freq;
  -1 / ((omega_n : ℂ) ^ 2 - (omega : ℂ) ^ 2
    + 2 * Complex.I * (h : ℂ) * (omega_n : ℂ) * (omega : ℂ))

/-- FFT length of the response computation,
`n_fft = 2 ** int(np.ceil(np.log2(n)) + 1)`; for `n ≥ 1` the integer
`⌈log₂ n⌉` is `Nat.clog 2 n`. -/
def response_n_fft (n : ℕ) : ℕ := 2 ^ (Nat.clog 2 n + 1)

set_option linter.unusedVariables false in
/-- Embedding of `calculate_response_fft(acc, dt, period, h)`.  The body
keeps the dead first assignment to `abs_acc_fft` (immediately shadowed by
the retained `acc_fft + rel_acc_fft`), exactly as in the source. -/
noncomputable def calculate_response_fft (acc : List ℝ) (dt period h : ℝ) :
    ℝ × ℝ × ℝ :=
  if period = 0 then
    (0, 0, listMax (acc.map (fun x => |x|)))
  else
    let n := acc.length
    let omega_n := 2 * Real.pi / period
    let n_fft := response_n_fft n
    let acc_fft : ℕ → ℂ := fun k => rfft acc n_fft k
    let freq : ℕ → ℝ := fun k => (k : ℝ) / (n_fft * dt)
    let H_disp : ℕ → ℂ := fun k => sdof_transfer_function (freq k) omega_n h
    let disp_fft : ℕ → ℂ := fun k => acc_fft k * H_disp k
    let omega : ℕ → ℝ := fun k => 2 * Real.pi * freq k
    let vel_fft : ℕ → ℂ := fun k => Complex.I * (omega k : ℂ) * disp_fft k
    let abs_acc_fft : ℕ → ℂ := fun k =>
      acc_fft k + (-((omega k : ℂ)) ^ 2 * disp_fft k
        - 2 * (h : ℂ) * (omega_n : ℂ) * vel_fft k / Complex.I)
    let rel_acc_fft : ℕ → ℂ := fun k => -((omega k : ℂ)) ^ 2 * disp_fft k
    let abs_acc_fft : ℕ → ℂ := fun k => acc_fft k + rel_acc_fft k
    let disp := ((List.range n_fft).map (irfft disp_fft n_fft)).take n
    let vel := ((List.range n_fft).map (irfft vel_fft n_fft)).take n
    let abs_acc_resp := ((List.range n_fft).map (irfft abs_acc_fft n_fft)).take n
    (listMax (disp.map (fun x => |x|)),
      listMax (vel.map (fun x => |x|)),
      listMax (abs_acc_resp.map (fun x => |x|)))

/-- Response computation following the spec's words: identical to
`calculate_response_fft` except that only the retained absolute-acceleration
formula `AbsAcc(ω) = A(ω) − ω²·D(ω)` is computed; the discarded first
expression is absent. -/
noncomputable def calculate_response_fft_spec (acc : List ℝ) (dt period h : ℝ) :
    ℝ × ℝ × ℝ :=
  if period = 0 then
    (0, 0, listMax (acc.map (fun x => |x|)))
  else
    let n := acc.length
    let omega_n := 2 * Real.pi / period
    let n_fft := response_n_fft n
    let acc_fft : ℕ → ℂ := fun k => rfft acc n_fft k
    let freq : ℕ → ℝ := fun k => (k : ℝ) / (n_fft * dt)
    let H_disp : ℕ → ℂ := fun k => sdof_transfer_function (freq k) omega_n h
    let disp_fft : ℕ → ℂ := fun k => acc_fft k * H_disp k
    let omega : ℕ → ℝ := fun k => 2 * Real.pi * freq k
    let vel_fft : ℕ → ℂ := fun k => Complex.I * (omega k : ℂ) * disp_fft k
    let rel_acc_fft : ℕ → ℂ := fun k => -((omega k : ℂ)) ^ 2 * disp_fft k
    let abs_acc_fft : ℕ → ℂ := fun k => acc_fft k + rel_acc_fft k
    let disp := ((List.range n_fft).map (irfft disp_fft n_fft)).take n
    let vel := ((List.range n_fft).map (irfft vel_fft n_fft)).take n
    let abs_acc_resp := ((List.range n_fft).map (irfft abs_acc_fft n_fft)).take n
    (listMax (disp.map (fun x => |x|)),
      listMax (vel.map (fun x => |x|)),
      listMax (abs_acc_resp.map (fun x => |x|)))

/-- Embedding of `calculate_response_spectrum(acc, dt, periods, h)`: the SD,
SV, SA arrays over the period grid, plus `pSV = (2π/T)·SD` at the indices
with `T > 0` (every other entry keeps its initial value 0). -/
noncomputable def calculate_response_spectrum (acc : List ℝ) (dt : ℝ)
    (periods : List ℝ) (h : ℝ) : List ℝ × List ℝ × List ℝ × List ℝ :=
  let resp := periods.map (fun T => calculate_response_fft acc dt T h)
  let sd_arr := resp.map (fun r => r.1)
  let sv_arr := resp.map (fun r => r.2.1)
  let sa_arr := resp.map (fun r => r.2.2)
  let psv_arr := (periods.zip sd_arr).map
    (fun p => if 0 < p.1 then 2 * Real.pi / p.1 * p.2 else 0)
  (sd_arr, sv_arr, sa_arr, psv_arr)

theorem listMax_cons (x : ℝ) (xs : List ℝ) (h : xs ≠ []) :
    listMax (x :: xs) = max x (listMax xs) := by
  cases xs with
  | nil => exact absurd rfl h
  | cons y ys => rfl

theorem le_listMax_of_mem {l : List ℝ} {x : ℝ} (hx : x ∈ l) : x ≤ listMax l := by
  induction l with
  | nil => cases hx
  | cons a as ih =>
    cases as with
    | nil =>
      rcases List.mem_singleton.mp hx with rfl
      exact le_refl _
    | cons b bs =>
      rcases List.mem_cons.mp hx with rfl | hmem
      · exact le_max_left _ _
      · exact le_trans (ih hmem) (le_max_right _ _)

theorem listMax_mem {l : List ℝ} (h : l ≠ []) : listMax l ∈ l := by
  induction l with
  | nil => exact absurd rfl h
  | cons a as ih =>
    cases as with
    | nil => simp [listMax]
    | cons b bs =>
      rw [listMax_cons a (b :: bs) (by simp)]
      rcases le_total (listMax (b :: bs)) a with hle | hle
      · rw [max_eq_left hle]; exact List.mem_cons_self _ _
      · rw [max_eq_right hle]
        exact List.mem_cons_of_mem _ (ih (by simp))

theorem listMax_nonneg {l : List ℝ} (hne : l ≠ []) (h : ∀ x ∈ l, 0 ≤ x) :
    0 ≤ listMax l := h _ (listMax_mem hne)

theorem listMax_map_le {base : List ℕ} {f g : ℕ → ℝ}
    (h : ∀ x ∈ base, f x ≤ g x) :
    listMax (base.map f) ≤ listMax (base.map g) := by
  induction base with
  | nil => simp [listMax]
  | cons a as ih =>
    cases as with
    | nil =>
      simpa [listMax] using h a (List.mem_cons_self _ _)
    | cons b bs =>
      have hfa : f a ≤ g a := h a (List.mem_cons_self _ _)
      have hrec : listMax ((b :: bs).map f) ≤ listMax ((b :: bs).map g) :=
        ih (fun x hx => h x (List.mem_cons_of_mem _ hx))
      simp only [List.map_cons]
      rw [listMax_cons (f a) _ (by simp), listMax_cons (g a) _ (by simp)]
      exact max_le_max hfa hrec

theorem argmaxIdx_lt_length {l : List ℝ} (h : l ≠ []) : argmaxIdx l < l.length := by
  induction l with
  | nil => exact absurd rfl h
  | cons a as ih =>
    cases as with
    | nil => simp [argmaxIdx]
    | cons b bs =>
      by_cases hlt : a < listMax (b :: bs)
      · have h1 := ih (by simp)
        simp only [List.length_cons] at h1
        simp only [argmaxIdx, if_pos hlt, List.length_cons]
        omega
      · simp [argmaxIdx, if_neg hlt]

theorem getD_argmaxIdx {l : List ℝ} (h : l ≠ []) :
    l.getD (argmaxIdx l) 0 = listMax l := by
  induction l with
  | nil => exact absurd rfl h
  | cons a as ih =>
    cases as with
    | nil => simp [argmaxIdx, listMax]
    | cons b bs =>
      by_cases hlt : a < listMax (b :: bs)
      · simp only [argmaxIdx, if_pos hlt, List.getD_cons_succ]
        rw [ih (by simp), listMax_cons a _ (by simp), max_eq_right (le_of_lt hlt)]
      · simp only [argmaxIdx, if_neg hlt, List.getD_cons_zero]
        rw [listMax_cons a _ (by simp), max_eq_left (le_of_not_lt hlt)]

theorem getD_lt_of_lt_argmaxIdx {l : List ℝ} {j : ℕ} (hj : j < argmaxIdx l) :
    l.getD j 0 < listMax l := by
  induction l generalizing j with
  | nil => simp [argmaxIdx] at hj
  | cons a as ih =>
    cases as with
    | nil => simp [argmaxIdx] at hj
    | cons b bs =>
      by_cases hlt : a < listMax (b :: bs)
      · rw [listMax_cons a _ (by simp), max_eq_right (le_of_lt hlt)]
        simp only [argmaxIdx, if_pos hlt] at hj
        cases j with
        | zero => simpa using hlt
        | succ j' =>
          simp only [List.getD_cons_succ]
          exact ih (by omega)
      · simp [argmaxIdx, if_neg hlt] at hj

theorem sum_map_sub_const (l : List ℝ) (c : ℝ) :
    (l.map (fun x => x - c)).sum = l.sum - l.length * c := by
  induction l with
  | nil => simp
  | cons a as ih =>
    simp only [List.map_cons, List.sum_cons, ih, List.length_cons]
    push_cast
    ring

theorem listMean_map_sub_listMean (l : List ℝ) :
    listMean (l.map (fun x => x - listMean l)) = 0 := by
  rcases eq_or_ne l [] with rfl | hne
  · simp [listMean]
  · have hlen0 : l.length ≠ 0 := by
      simpa [List.length_eq_zero] using hne
    have hlen : (l.length : ℝ) ≠ 0 := Nat.cast_ne_zero.mpr hlen0
    simp only [listMean, sum_map_sub_const, List.length_map]
    field_simp

theorem getD_range_map (f : ℕ → ℝ) (L k : ℕ) (h : k < L) :
    ((List.range L).map f).getD k 0 = f k := by
  rw [List.getD_eq_getElem _ _ (by simpa using h)]
  simp

theorem getD_set_self (l : List ℝ) (i : ℕ) (a : ℝ) (h : i < l.length) :
    (l.set i a).getD i 0 = a := by
  rw [List.getD_eq_getElem _ _ (by simpa using h)]
  simp

theorem getD_set_ne (l : List ℝ) (i j : ℕ) (a : ℝ) (hij : i ≠ j) :
    (l.set i a).getD j 0 = l.getD j 0 := by
  rcases lt_or_le j l.length with hj | hj
  · rw [List.getD_eq_getElem _ _ (by simpa using hj),
      List.getD_eq_getElem _ _ hj]
    exact List.getElem_set_ne hij _
  · rw [List.getD_eq_default _ _ (by simpa using hj),
      List.getD_eq_default _ _ hj]

theorem getD_replicate (n j : ℕ) (c : ℝ) (h : j < n) :
    (List.replicate n c).getD j 0 = c := by
  rw [List.getD_eq_getElem _ _ (by simpa using h)]
  simp

theorem getD_map_abs (l : List ℝ) (i : ℕ) (h : i < l.length) :
    (l.map (fun x => |x|)).getD i 0 = |l.getD i 0| := by
  rw [List.getD_eq_getElem _ _ (by simpa using h), List.getD_eq_getElem _ _ h]
  simp

theorem rfft_replicate_zero (n : ℕ) (c : ℝ) :
    rfft (List.replicate n c) n 0 = (n : ℂ) * (c : ℂ) := by
  rw [rfft]
  have h1 : ∀ j ∈ Finset.range n,
      ((List.replicate n c).getD j 0 : ℂ) *
        Complex.exp (-(2 * (Real.pi : ℂ) * Complex.I * j * (0 : ℕ)) / n) = (c : ℂ) := by
    intro j hj
    rw [getD_replicate n j c (Finset.mem_range.mp hj)]
    norm_num
  rw [Finset.sum_congr rfl h1, Finset.sum_const, Finset.card_range]
  simp

/-- C2: the response-spectrum computation that first evaluates a discarded
absolute-acceleration expression and then overwrites it with the retained
formula `AbsAcc(ω) = A(ω) − ω²·D(ω)` returns exactly the same (SD, SV, SA)
triple as the implementation that computes only the retained formula; the
dead first expression has no effect on any output. -/
theorem response_fft_dead_code_equiv (acc : List ℝ) (dt period h : ℝ) :
    calculate_response_fft acc dt period h =
      calculate_response_fft_spec acc dt period h := rfl

/-- C3: at natural period `T = 0` the response computation returns
`SD = 0`, `SV = 0`, and `SA` exactly the maximum absolute value of the raw
input series (it is an upper bound of every `|acc[i]|` and is attained), and
the pseudo-velocity `pSV` at a zero period in the grid is 0. -/
theorem response_zero_period (acc : List ℝ) (dt h : ℝ) (periods : List ℝ)
    (hne : acc ≠ []) :
    calculate_response_fft acc dt 0 h = (0, 0, listMax (acc.map (fun x => |x|)))
    ∧ (∀ i, i < acc.length →
        |acc.getD i 0| ≤ (calculate_response_fft acc dt 0 h).2.2)
    ∧ (∃ i, i < acc.length ∧
        (calculate_response_fft acc dt 0 h).2.2 = |acc.getD i 0|)
    ∧ (∀ i, i < periods.length → periods.getD i 0 = 0 →
        (calculate_response_spectrum acc dt periods h).2.2.2.getD i 0 = 0) := by
  have hmap : acc.map (fun x => |x|) ≠ [] := by
    simpa [List.map_eq_nil_iff] using hne
  have hval : calculate_response_fft acc dt 0 h =
      (0, 0, listMax (acc.map (fun x => |x|))) := by
    simp [calculate_response_fft]
  refine ⟨hval, ?_, ?_, ?_⟩
  · intro i hi
    rw [hval]
    rw [← getD_map_abs acc i hi]
    rw [List.getD_eq_getElem _ _ (by simpa using hi)]
    exact le_listMax_of_mem (List.getElem_mem _)
  · rw [hval]
    rcases List.mem_iff_getElem.mp (listMax_mem hmap) with ⟨i, hilen, hi⟩
    have hlen : i < acc.length := by simpa using hilen
    refine ⟨i, hlen, ?_⟩
    rw [← getD_map_abs acc i hlen, List.getD_eq_getElem _ _ (by simpa using hlen), hi]
  · intro i hi hTi
    have hsd : ((calculate_response_spectrum acc dt periods h).1).length =
        periods.length := by
      simp [calculate_response_spectrum]
    simp only [calculate_response_spectrum]
    have hzip : i < (periods.zip
        ((periods.map (fun T => calculate_response_fft acc dt T h)).map
          (fun r => r.1))).length := by
      simpa using (by omega : i < min periods.length periods.length)
    rw [List.getD_eq_getElem _ _ (by simpa using hzip)]
    rw [List.getElem_map]
    rw [List.getElem_zip]
    have hp : periods[i] = (0 : ℝ) := by
      rw [← List.getD_eq_getElem _ _ hi]
      exact hTi
    simp [hp]

/-- Witness for C3 at the concrete input `acc = [2]`, `dt = 1`, `h = 1/20`,
`periods = [0]`. -/
theorem response_zero_period_witness :
    ([(2 : ℝ)] ≠ [])
    ∧ (calculate_response_fft [(2 : ℝ)] 1 0 (1 / 20) =
          (0, 0, listMax ([(2 : ℝ)].map (fun x => |x|)))
        ∧ (∀ i, i < [(2 : ℝ)].length →
            |[(2 : ℝ)].getD i 0| ≤ (calculate_response_fft [(2 : ℝ)] 1 0 (1 / 20)).2.2)
        ∧ (∃ i, i < [(2 : ℝ)].length ∧
            (calculate_response_fft [(2 : ℝ)] 1 0 (1 / 20)).2.2 = |[(2 : ℝ)].getD i 0|)
        ∧ (∀ i, i < [(0 : ℝ)].length → [(0 : ℝ)].getD i 0 = 0 →
            (calculate_response_spectrum [(2 : ℝ)] 1 [(0 : ℝ)] (1 / 20)).2.2.2.getD i 0
              = 0)) :=
  ⟨by simp, response_zero_period [(2 : ℝ)] 1 (1 / 20) [(0 : ℝ)] (by simp)⟩

/-- C7: the FFT length used by the response computation is
`2 ^ (⌈log2 n⌉ + 1)`; it is a power of two and the smallest power of two
that is at least `2·n`. -/
theorem response_n_fft_minimal_pow (n : ℕ) (hn : 1 ≤ n) :
    response_n_fft n = 2 ^ (Nat.clog 2 n + 1)
    ∧ (∃ k, response_n_fft n = 2 ^ k)
    ∧ 2 * n ≤ response_n_fft n
    ∧ (∀ m, 2 * n ≤ 2 ^ m → response_n_fft n ≤ 2 ^ m) := by
  refine ⟨rfl, ⟨Nat.clog 2 n + 1, rfl⟩, ?_, ?_⟩
  · have h1 : n ≤ 2 ^ Nat.clog 2 n := Nat.le_pow_clog one_lt_two n
    calc 2 * n ≤ 2 * 2 ^ Nat.clog 2 n := by omega
    _ = 2 ^ (Nat.clog 2 n + 1) := by rw [pow_succ]; ring
    _ = response_n_fft n := rfl
  · intro m hm
    have hm1 : 1 ≤ m := by
      by_contra hc
      interval_cases m
      omega
    have h2 : n ≤ 2 ^ (m - 1) := by
      have : 2 ^ m = 2 * 2 ^ (m - 1) := by
        conv_lhs => rw [show m = (m - 1) + 1 by omega]
        rw [pow_succ]; ring
      omega
    have h3 : Nat.clog 2 n ≤ m - 1 := (Nat.le_pow_iff_clog_le one_lt_two).mp h2
    have h4 : Nat.clog 2 n + 1 ≤ m := by omega
    exact Nat.pow_le_pow_right (by omega) h4

/-- Witness for C7 at `n = 3`: `response_n_fft 3 = 8`. -/
theorem response_n_fft_minimal_pow_witness :
    1 ≤ 3
    ∧ (response_n_fft 3 = 2 ^ (Nat.clog 2 3 + 1)
        ∧ (∃ k, response_n_fft 3 = 2 ^ k)
        ∧ 2 * 3 ≤ response_n_fft 3
        ∧ (∀ m, 2 * 3 ≤ 2 ^ m → response_n_fft 3 ≤ 2 ^ m)) :=
  ⟨by decide, response_n_fft_minimal_pow 3 (by decide)⟩

/-- C9: after ingestion the three component series are trimmed to a common
length, the minimum of the three original lengths, and the peak computations
of `process_nied_station` are applied to the trimmed series. -/
theorem nied_trim_aligns_components (ew ns ud : List ℝ) :
    (trim_components ew ns ud).1.length = min (min ew.length ns.length) ud.length
    ∧ (trim_components ew ns ud).2.1.length = min (min ew.length ns.length) ud.length
    ∧ (trim_components ew ns ud).2.2.length = min (min ew.length ns.length) ud.length
    ∧ process_nied_peaks ew ns ud =
        (calc_signed_peak (trim_components ew ns ud).2.1,
          calc_signed_peak (trim_components ew ns ud).1,
          calc_signed_peak (trim_components ew ns ud).2.2,
          calc_peak_horizontal (trim_components ew ns ud).2.1 (trim_components ew ns ud).1,
          calc_peak_total (trim_components ew ns ud).2.1 (trim_components ew ns ud).1
            (trim_components ew ns ud).2.2) := by
  refine ⟨?_, ?_, ?_, rfl⟩ <;>
    simp only [trim_components, List.length_take] <;> omega

theorem getD_nonneg_of_forall {l : List ℝ} (h : ∀ x ∈ l, 0 ≤ x) (i : ℕ) :
    0 ≤ l.getD i 0 := by
  rcases lt_or_le i l.length with hi | hi
  · rw [List.getD_eq_getElem _ _ hi]
    exact h _ (List.getElem_mem _)
  · rw [List.getD_eq_default _ _ hi]

theorem set_forall_nonneg {l : List ℝ} {a : ℝ} (h : ∀ x ∈ l, 0 ≤ x)
    (ha : 0 ≤ a) (i : ℕ) : ∀ x ∈ l.set i a, 0 ≤ x := by
  intro x hx
  rcases List.mem_or_eq_of_mem_set hx with hx1 | rfl
  · exact h _ hx1
  · exact ha

theorem fourier_amplitude_length (data : List ℝ) (rate : ℝ) :
    (fourier_amplitude data rate).length = data.length / 2 + 1 := by
  simp only [fourier_amplitude]
  split_ifs <;> simp

theorem fourier_amplitude_getD_zero (data : List ℝ) (rate : ℝ) (hne : data ≠ []) :
    (fourier_amplitude data rate).getD 0 0 =
      Complex.abs (rfft data data.length 0) * (1 / rate) * 2 / 2 := by
  have hn1 : 1 ≤ data.length := List.length_pos.mpr hne
  simp only [fourier_amplitude]
  by_cases hev : data.length % 2 = 0
  · rw [if_pos hev]
    have hny : data.length / 2 ≠ 0 := by omega
    rw [show (((List.range (data.length / 2 + 1)).map
        (fun k => Complex.abs (rfft data data.length k) * (1 / rate) * 2)).set 0
          (((List.range (data.length / 2 + 1)).map
            (fun k => Complex.abs (rfft data data.length k) * (1 / rate) * 2)).getD 0 0
              / 2)).length - 1 = data.length / 2 by simp]
    rw [getD_set_ne _ _ _ _ hny, getD_set_self _ _ _ (by simp),
      getD_range_map _ _ _ (by omega)]
  · rw [if_neg hev]
    rw [getD_set_self _ _ _ (by simp), getD_range_map _ _ _ (by omega)]

theorem fourier_amplitude_getD_mid (data : List ℝ) (rate : ℝ) (k : ℕ)
    (hk0 : 0 < k) (hkle : k ≤ data.length / 2)
    (hkn : data.length % 2 = 1 ∨ k < data.length / 2) :
    (fourier_amplitude data rate).getD k 0 =
      Complex.abs (rfft data data.length k) * (1 / rate) * 2 := by
  simp only [fourier_amplitude]
  by_cases hev : data.length % 2 = 0
  · rw [if_pos hev]
    have hkny : k < data.length / 2 := by
      rcases hkn with h1 | h2
      · omega
      · exact h2
    rw [show (((List.range (data.length / 2 + 1)).map
        (fun j => Complex.abs (rfft data data.length j) * (1 / rate) * 2)).set 0
          (((List.range (data.length / 2 + 1)).map
            (fun j => Complex.abs (rfft data data.length j) * (1 / rate) * 2)).getD 0 0
              / 2)).length - 1 = data.length / 2 by simp]
    rw [getD_set_ne _ _ _ _ (by omega), getD_set_ne _ _ _ _ (by omega),
      getD_range_map _ _ _ (by omega)]
  · rw [if_neg hev]
    rw [getD_set_ne _ _ _ _ (by omega), getD_range_map _ _ _ (by omega)]

theorem fourier_amplitude_getD_nyquist (data : List ℝ) (rate : ℝ)
    (hne : data ≠ []) (hev : data.length % 2 = 0) :
    (fourier_amplitude data rate).getD (data.length / 2) 0 =
      Complex.abs (rfft data data.length (data.length / 2)) * (1 / rate) * 2 / 2 := by
  have hn1 : 1 ≤ data.length := List.length_pos.mpr hne
  have hny : data.length / 2 ≠ 0 := by omega
  simp only [fourier_amplitude]
  rw [if_pos hev]
  rw [show (((List.range (data.length / 2 + 1)).map
      (fun j => Complex.abs (rfft data data.length j) * (1 / rate) * 2)).set 0
        (((List.range (data.length / 2 + 1)).map
          (fun j => Complex.abs (rfft data data.length j) * (1 / rate) * 2)).getD 0 0
            / 2)).length - 1 = data.length / 2 by simp]
  rw [getD_set_self _ _ _ (by simp), getD_set_ne _ _ _ _ (Ne.symm hny),
    getD_range_map _ _ _ (by omega)]

/-- C1: the Fourier amplitude spectrum is `|F_k|·dt·2` at every bin with
`dt = 1/rate`, except that the DC bin is additionally divided by 2 and, when
`n` is even, the Nyquist (last) bin is additionally divided by 2; for a
constant series of value `c` over `n` samples the DC amplitude is
`|c|·n·dt`. -/
theorem fourier_amplitude_normalization (data : List ℝ) (rate : ℝ)
    (hrate : 0 < rate) (hne : data ≠ []) :
    ((fourier_amplitude data rate).getD 0 0 =
      Complex.abs (rfft data data.length 0) * (1 / rate) * 2 / 2)
    ∧ (∀ k, 0 < k → k ≤ data.length / 2 →
        (data.length % 2 = 1 ∨ k < data.length / 2) →
        (fourier_amplitude data rate).getD k 0 =
          Complex.abs (rfft data data.length k) * (1 / rate) * 2)
    ∧ (data.length % 2 = 0 →
        (fourier_amplitude data rate).getD (data.length / 2) 0 =
          Complex.abs (rfft data data.length (data.length / 2)) * (1 / rate) * 2 / 2)
    ∧ (∀ c : ℝ, data = List.replicate data.length c →
        (fourier_amplitude data rate).getD 0 0 =
          |c| * data.length * (1 / rate)) := by
  refine ⟨fourier_amplitude_getD_zero data rate hne,
    fun k hk0 hkle hkn => fourier_amplitude_getD_mid data rate k hk0 hkle hkn,
    fun hev => fourier_amplitude_getD_nyquist data rate hne hev, ?_⟩
  intro c hc
  have h0 : rfft data data.length 0 = ((data.length : ℕ) : ℂ) * (c : ℂ) := by
    rw [hc]
    simp only [List.length_replicate]
    exact rfft_replicate_zero data.length c
  rw [fourier_amplitude_getD_zero data rate hne, h0]
  rw [map_mul Complex.abs, Complex.abs_natCast, Complex.abs_ofReal]
  ring

/-- Witness for C1 at `data = [2, 2]`, `rate = 1`. -/
theorem fourier_amplitude_normalization_witness :
    (0 : ℝ) < 1
    ∧ ([(2 : ℝ), 2] ≠ [])
    ∧ (((fourier_amplitude [(2 : ℝ), 2] 1).getD 0 0 =
        Complex.abs (rfft [(2 : ℝ), 2] [(2 : ℝ), 2].length 0) * (1 / 1) * 2 / 2)
      ∧ (∀ k, 0 < k → k ≤ [(2 : ℝ), 2].length / 2 →
          ([(2 : ℝ), 2].length % 2 = 1 ∨ k < [(2 : ℝ), 2].length / 2) →
          (fourier_amplitude [(2 : ℝ), 2] 1).getD k 0 =
            Complex.abs (rfft [(2 : ℝ), 2] [(2 : ℝ), 2].length k) * (1 / 1) * 2)
      ∧ ([(2 : ℝ), 2].length % 2 = 0 →
          (fourier_amplitude [(2 : ℝ), 2] 1).getD ([(2 : ℝ), 2].length / 2) 0 =
            Complex.abs (rfft [(2 : ℝ), 2] [(2 : ℝ), 2].length ([(2 : ℝ), 2].length / 2))
              * (1 / 1) * 2 / 2)
      ∧ (∀ c : ℝ, [(2 : ℝ), 2] = List.replicate [(2 : ℝ), 2].length c →
          (fourier_amplitude [(2 : ℝ), 2] 1).getD 0 0 =
            |c| * [(2 : ℝ), 2].length * (1 / 1))) :=
  ⟨by norm_num, by simp,
    fourier_amplitude_normalization [(2 : ℝ), 2] 1 (by norm_num) (by simp)⟩

/-- C10: for every input series and positive sampling rate, the frequency
and amplitude arrays of the Fourier spectrum have the same length and every
amplitude entry is nonnegative. -/
theorem fourier_spectrum_wellformed (data : List ℝ) (rate : ℝ)
    (hrate : 0 < rate) :
    (calculate_fourier_spectrum data rate).1.length =
      (calculate_fourier_spectrum data rate).2.length
    ∧ ∀ x ∈ (calculate_fourier_spectrum data rate).2, 0 ≤ x := by
  constructor
  · show (rfftfreq data.length (1 / rate)).length = (fourier_amplitude data rate).length
    rw [fourier_amplitude_length]
    unfold rfftfreq
    rw [List.length_map, List.length_range]
  · have hraw : ∀ x ∈ (List.range (data.length / 2 + 1)).map
        (fun k => Complex.abs (rfft data data.length k) * (1 / rate) * 2), 0 ≤ x := by
      intro x hx
      rcases List.mem_map.mp hx with ⟨k, _, rfl⟩
      have h1 := Complex.abs.nonneg (rfft data data.length k)
      have h2 : 0 ≤ (1 : ℝ) / rate := by positivity
      positivity
    have ha1 : ∀ x ∈ ((List.range (data.length / 2 + 1)).map
        (fun k => Complex.abs (rfft data data.length k) * (1 / rate) * 2)).set 0
          (((List.range (data.length / 2 + 1)).map
            (fun k => Complex.abs (rfft data data.length k) * (1 / rate) * 2)).getD 0 0
              / 2), 0 ≤ x :=
      set_forall_nonneg hraw
        (div_nonneg (getD_nonneg_of_forall hraw 0) (by norm_num)) 0
    intro x hx
    simp only [calculate_fourier_spectrum, fourier_amplitude] at hx
    by_cases hev : data.length % 2 = 0
    · rw [if_pos hev] at hx
      exact set_forall_nonneg ha1
        (div_nonneg (getD_nonneg_of_forall ha1 _) (by norm_num)) _ x hx
    · rw [if_neg hev] at hx
      exact ha1 x hx

/-- Witness for C10 at `data = [1, 2]`, `rate = 1`. -/
theorem fourier_spectrum_wellformed_witness :
    (0 : ℝ) < 1
    ∧ ((calculate_fourier_spectrum [(1 : ℝ), 2] 1).1.length =
        (calculate_fourier_spectrum [(1 : ℝ), 2] 1).2.length
      ∧ ∀ x ∈ (calculate_fourier_spectrum [(1 : ℝ), 2] 1).2, 0 ≤ x) :=
  ⟨by norm_num, fourier_spectrum_wellformed [(1 : ℝ), 2] 1 (by norm_num)⟩

/-- C4: the integrator guards the DC angular frequency with `1.0`, forces
the DC bins of the velocity and displacement spectra to zero, returns series
of exactly the input length (the padding tail is discarded), and after the
final drift-removal step each returned series has exact sample mean zero. -/
theorem integrator_dc_guard_and_output (data : List ℝ) (rate : ℝ)
    (hne : data ≠ []) :
    integ_omega (4 * data.length) (1 / rate) 0 = 1
    ∧ integ_fft_vel data (4 * data.length) (1 / rate) 0 = 0
    ∧ integ_fft_disp data (4 * data.length) (1 / rate) 0 = 0
    ∧ (integrate_fft_padded data rate 4).1.length = data.length
    ∧ (integrate_fft_padded data rate 4).2.length = data.length
    ∧ listMean (integrate_fft_padded data rate 4).1 = 0
    ∧ listMean (integrate_fft_padded data rate 4).2 = 0 := by
  refine ⟨rfl, rfl, rfl, ?_, ?_, ?_, ?_⟩
  · simp only [integrate_fft_padded]
    rw [List.length_map, List.length_take, List.length_map, List.length_range]
    omega
  · simp only [integrate_fft_padded]
    rw [List.length_map, List.length_take, List.length_map, List.length_range]
    omega
  · simp only [integrate_fft_padded]
    exact listMean_map_sub_listMean _
  · simp only [integrate_fft_padded]
    exact listMean_map_sub_listMean _

/-- Witness for C4 at `data = [1]`, `rate = 1`. -/
theorem integrator_dc_guard_and_output_witness :
    ([(1 : ℝ)] ≠ [])
    ∧ (integ_omega (4 * [(1 : ℝ)].length) (1 / 1) 0 = 1
      ∧ integ_fft_vel [(1 : ℝ)] (4 * [(1 : ℝ)].length) (1 / 1) 0 = 0
      ∧ integ_fft_disp [(1 : ℝ)] (4 * [(1 : ℝ)].length) (1 / 1) 0 = 0
      ∧ (integrate_fft_padded [(1 : ℝ)] 1 4).1.length = [(1 : ℝ)].length
      ∧ (integrate_fft_padded [(1 : ℝ)] 1 4).2.length = [(1 : ℝ)].length
      ∧ listMean (integrate_fft_padded [(1 : ℝ)] 1 4).1 = 0
      ∧ listMean (integrate_fft_padded [(1 : ℝ)] 1 4).2 = 0) :=
  ⟨by simp, integrator_dc_guard_and_output [(1 : ℝ)] 1 (by simp)⟩

/-- C5: `calc_signed_peak` returns the sample value, with its sign, at the
lowest index attaining the maximum absolute value: the index is in range,
its absolute value is the maximum of all absolute values, and every strictly
earlier sample has strictly smaller absolute value. -/
theorem signed_peak_first_max (S : List ℝ) (hne : S ≠ []) :
    calc_signed_peak S = S.getD (argmaxIdx (S.map (fun x => |x|))) 0
    ∧ argmaxIdx (S.map (fun x => |x|)) < S.length
    ∧ |S.getD (argmaxIdx (S.map (fun x => |x|))) 0| =
        listMax (S.map (fun x => |x|))
    ∧ (∀ j, j < S.length → |S.getD j 0| ≤ listMax (S.map (fun x => |x|)))
    ∧ (∀ j, j < argmaxIdx (S.map (fun x => |x|)) →
        |S.getD j 0| < |S.getD (argmaxIdx (S.map (fun x => |x|))) 0|) := by
  have hmne : S.map (fun x => |x|) ≠ [] := by
    simpa [List.map_eq_nil_iff] using hne
  have hilt : argmaxIdx (S.map (fun x => |x|)) < S.length := by
    have h1 := argmaxIdx_lt_length hmne
    simpa using h1
  have hattain : |S.getD (argmaxIdx (S.map (fun x => |x|))) 0| =
      listMax (S.map (fun x => |x|)) := by
    rw [← getD_map_abs S _ hilt]
    exact getD_argmaxIdx hmne
  refine ⟨rfl, hilt, hattain, ?_, ?_⟩
  · intro j hj
    rw [← getD_map_abs S j hj, List.getD_eq_getElem _ _ (by simpa using hj)]
    exact le_listMax_of_mem (List.getElem_mem _)
  · intro j hj
    have hjlt : j < S.length := lt_trans hj hilt
    have h2 := getD_lt_of_lt_argmaxIdx hj
    rw [getD_map_abs S j hjlt] at h2
    rw [hattain]
    exact h2

/-- Witness for C5 at `S = [1, -3, 2]`. -/
theorem signed_peak_first_max_witness :
    ([(1 : ℝ), -3, 2] ≠ [])
    ∧ (calc_signed_peak [(1 : ℝ), -3, 2] =
        [(1 : ℝ), -3, 2].getD (argmaxIdx ([(1 : ℝ), -3, 2].map (fun x => |x|))) 0
      ∧ argmaxIdx ([(1 : ℝ), -3, 2].map (fun x => |x|)) < [(1 : ℝ), -3, 2].length
      ∧ |[(1 : ℝ), -3, 2].getD (argmaxIdx ([(1 : ℝ), -3, 2].map (fun x => |x|))) 0| =
          listMax ([(1 : ℝ), -3, 2].map (fun x => |x|))
      ∧ (∀ j, j < [(1 : ℝ), -3, 2].length →
          |[(1 : ℝ), -3, 2].getD j 0| ≤ listMax ([(1 : ℝ), -3, 2].map (fun x => |x|)))
      ∧ (∀ j, j < argmaxIdx ([(1 : ℝ), -3, 2].map (fun x => |x|)) →
          |[(1 : ℝ), -3, 2].getD j 0| <
            |[(1 : ℝ), -3, 2].getD (argmaxIdx ([(1 : ℝ), -3, 2].map (fun x => |x|))) 0|)) :=
  ⟨by simp, signed_peak_first_max [(1 : ℝ), -3, 2] (by simp)⟩

theorem bcast2_length (f : ℝ → ℝ → ℝ) (a b : List ℝ) :
    (bcast2 f a b).length = bcastLen a.length b.length := by
  simp [bcast2]

theorem bcastLen_same (n : ℕ) : bcastLen n n = n := by
  unfold bcastLen
  split_ifs <;> rfl

theorem bcast2_eq_range_map (f : ℝ → ℝ → ℝ) (a b : List ℝ) (n : ℕ)
    (ha : a.length = n) (hb : b.length = n) :
    bcast2 f a b =
      (List.range n).map (fun i => f (bcastGet a i) (bcastGet b i)) := by
  unfold bcast2
  rw [ha, hb, bcastLen_same]

theorem getD_map_sq_nonneg (l : List ℝ) (j : ℕ) :
    0 ≤ (l.map (fun x => x ^ 2)).getD j 0 := by
  apply getD_nonneg_of_forall
  intro x hx
  rcases List.mem_map.mp hx with ⟨y, -, rfl⟩
  positivity

theorem bcastGet_map_sq_nonneg (l : List ℝ) (i : ℕ) :
    0 ≤ bcastGet (l.map (fun x => x ^ 2)) i := by
  unfold bcastGet
  split_ifs <;> apply getD_map_sq_nonneg

theorem bcastGet_range_map (g : ℕ → ℝ) (n i : ℕ) (h : i < n) :
    bcastGet ((List.range n).map g) i = g i := by
  unfold bcastGet
  by_cases h1 : ((List.range n).map g).length = 1
  · have hn1 : n = 1 := by simpa using h1
    subst hn1
    have hi0 : i = 0 := by omega
    subst hi0
    rw [if_pos h1]
    exact getD_range_map g 1 0 (by omega)
  · rw [if_neg h1]
    exact getD_range_map g n i h

/-- C6: for equal-length non-empty component triples, the horizontal and
total combined peaks are nonnegative and the total peak dominates the
horizontal peak. -/
theorem peak_total_dominates_horizontal (ns ew ud : List ℝ) (hne : ns ≠ [])
    (hlew : ns.length = ew.length) (hlud : ns.length = ud.length) :
    0 ≤ calc_peak_horizontal ns ew
    ∧ 0 ≤ calc_peak_total ns ew ud
    ∧ calc_peak_horizontal ns ew ≤ calc_peak_total ns ew ud := by
  have hn0 : 0 < ns.length := List.length_pos.mpr hne
  have e1 : bcast2 (fun x y => x + y)
      (ns.map (fun x => x ^ 2)) (ew.map (fun x => x ^ 2)) =
      (List.range ns.length).map
        (fun i => bcastGet (ns.map (fun x => x ^ 2)) i
          + bcastGet (ew.map (fun x => x ^ 2)) i) :=
    bcast2_eq_range_map _ _ _ ns.length (by simp) (by simp [hlew])
  have e2 : bcast2 (fun x y => x + y)
      (bcast2 (fun x y => x + y)
        (ns.map (fun x => x ^ 2)) (ew.map (fun x => x ^ 2)))
      (ud.map (fun x => x ^ 2)) =
      (List.range ns.length).map
        (fun i => bcastGet (bcast2 (fun x y => x + y)
            (ns.map (fun x => x ^ 2)) (ew.map (fun x => x ^ 2))) i
          + bcastGet (ud.map (fun x => x ^ 2)) i) :=
    bcast2_eq_range_map _ _ _ ns.length
      (by rw [bcast2_length]; simp [hlew, bcastLen_same]) (by simp [hlud])
  have hH : calc_peak_horizontal ns ew =
      listMax ((List.range ns.length).map
        (fun i => Real.sqrt (bcastGet (ns.map (fun x => x ^ 2)) i
          + bcastGet (ew.map (fun x => x ^ 2)) i))) := by
    unfold calc_peak_horizontal
    rw [e1, List.map_map]
    rfl
  have hT : calc_peak_total ns ew ud =
      listMax ((List.range ns.length).map
        (fun i => Real.sqrt (bcastGet (bcast2 (fun x y => x + y)
            (ns.map (fun x => x ^ 2)) (ew.map (fun x => x ^ 2))) i
          + bcastGet (ud.map (fun x => x ^ 2)) i))) := by
    unfold calc_peak_total
    rw [e2, List.map_map]
    rfl
  have hrne : (List.range ns.length).map
      (fun i => Real.sqrt (bcastGet (ns.map (fun x => x ^ 2)) i
        + bcastGet (ew.map (fun x => x ^ 2)) i)) ≠ [] := by
    simp only [ne_eq, List.map_eq_nil_iff, List.range_eq_nil]
    omega
  have htne : (List.range ns.length).map
      (fun i => Real.sqrt (bcastGet (bcast2 (fun x y => x + y)
          (ns.map (fun x => x ^ 2)) (ew.map (fun x => x ^ 2))) i
        + bcastGet (ud.map (fun x => x ^ 2)) i)) ≠ [] := by
    simp only [ne_eq, List.map_eq_nil_iff, List.range_eq_nil]
    omega
  refine ⟨?_, ?_, ?_⟩
  · rw [hH]
    apply listMax_nonneg hrne
    intro x hx
    rcases List.mem_map.mp hx with ⟨i, -, rfl⟩
    exact Real.sqrt_nonneg _
  · rw [hT]
    apply listMax_nonneg htne
    intro x hx
    rcases List.mem_map.mp hx with ⟨i, -, rfl⟩
    exact Real.sqrt_nonneg _
  · rw [hH, hT]
    apply listMax_map_le
    intro i hi
    have hilt : i < ns.length := List.mem_range.mp hi
    have hmid : bcastGet (bcast2 (fun x y => x + y)
        (ns.map (fun x => x ^ 2)) (ew.map (fun x => x ^ 2))) i =
        bcastGet (ns.map (fun x => x ^ 2)) i
          + bcastGet (ew.map (fun x => x ^ 2)) i := by
      rw [e1]
      exact bcastGet_range_map _ ns.length i hilt
    rw [hmid]
    apply Real.sqrt_le_sqrt
    have := bcastGet_map_sq_nonneg ud i
    linarith

/-- Witness for C6 at `ns = [1]`, `ew = [2]`, `ud = [3]`. -/
theorem peak_total_dominates_horizontal_witness :
    ([(1 : ℝ)] ≠ [])
    ∧ [(1 : ℝ)].length = [(2 : ℝ)].length
    ∧ [(1 : ℝ)].length = [(3 : ℝ)].length
    ∧ (0 ≤ calc_peak_horizontal [(1 : ℝ)] [(2 : ℝ)]
      ∧ 0 ≤ calc_peak_total [(1 : ℝ)] [(2 : ℝ)] [(3 : ℝ)]
      ∧ calc_peak_horizontal [(1 : ℝ)] [(2 : ℝ)] ≤
          calc_peak_total [(1 : ℝ)] [(2 : ℝ)] [(3 : ℝ)]) :=
  ⟨by simp, by simp, by simp,
    peak_total_dominates_horizontal [(1 : ℝ)] [(2 : ℝ)] [(3 : ℝ)]
      (by simp) (by simp) (by simp)⟩

theorem bcastLen_zero_pair {n m : ℕ} (h : n = 0 ∨ m = 0) (h1 : bcastOK n m) :
    bcastLen n m = 0 := by
  unfold bcastOK at h1
  unfold bcastLen
  split_ifs <;> omega

theorem not_bcastOK_of_mismatch {n m : ℕ} (hn : 2 ≤ n) (hm : 2 ≤ m)
    (hne : n ≠ m) : ¬bcastOK n m := by
  unfold bcastOK
  omega

/-- Counterexample to C8 as stated: `calc_peak_horizontal` applied to the
mismatched-length pair `[0]` (length 1) and `[0, 0, 3]` (length 3) does not
fail — NumPy broadcasts the length-1 series and the call returns the value
3. -/
theorem peak_horizontal_broadcasts_instead_of_failing :
    calc_peak_horizontalE [(0 : ℝ)] [0, 0, 3] = Except.ok 3 := by
  have hok : bcastOK [(0 : ℝ)].length [(0 : ℝ), 0, 3].length := by
    unfold bcastOK
    simp
  unfold calc_peak_horizontalE
  rw [if_pos hok, if_neg (by unfold bcastLen; simp)]
  have hval : calc_peak_horizontal [(0 : ℝ)] [0, 0, 3] = 3 := by
    have h9 : Real.sqrt 9 = 3 := by
      rw [show (9 : ℝ) = 3 ^ 2 by norm_num]
      exact Real.sqrt_sq (by norm_num)
    have hr3 : List.range 3 = [0, 1, 2] := by decide
    unfold calc_peak_horizontal bcast2 bcastGet bcastLen
    simp only [List.length_map, List.length_cons, List.length_nil]
    norm_num [hr3, List.getD_cons_zero, List.getD_cons_succ, h9, listMax]
  rw [hval]

/-- C8 (amended): empty inputs fail with `InvalidInput`, and mismatched
lengths fail when both lengths are at least 2 (broadcast-incompatible); but
a length-1 series paired with a longer one is broadcast elementwise and the
call returns a value instead of failing (see the counterexample). -/
theorem peak_ops_error_cases (data ns ew ud : List ℝ) :
    (data = [] → calc_signed_peakE data = Except.error ErrorKind.invalidInput)
    ∧ ((ns = [] ∨ ew = []) →
        calc_peak_horizontalE ns ew = Except.error ErrorKind.invalidInput)
    ∧ (2 ≤ ns.length → 2 ≤ ew.length → ns.length ≠ ew.length →
        calc_peak_horizontalE ns ew = Except.error ErrorKind.invalidInput)
    ∧ ((ns = [] ∨ ew = [] ∨ ud = []) →
        calc_peak_totalE ns ew ud = Except.error ErrorKind.invalidInput)
    ∧ (2 ≤ ns.length → 2 ≤ ew.length → 2 ≤ ud.length →
        ¬(ns.length = ew.length ∧ ew.length = ud.length) →
        calc_peak_totalE ns ew ud = Except.error ErrorKind.invalidInput) := by
  refine ⟨?_, ?_, ?_, ?_, ?_⟩
  · intro h
    subst h
    rfl
  · intro h
    have hlen : ns.length = 0 ∨ ew.length = 0 := by
      rcases h with rfl | rfl
      · left; rfl
      · right; rfl
    unfold calc_peak_horizontalE
    split_ifs with h1 h2
    · rfl
    · exact absurd (bcastLen_zero_pair hlen h1) h2
    · rfl
  · intro hn hm hne
    unfold calc_peak_horizontalE
    rw [if_neg (not_bcastOK_of_mismatch hn hm hne)]
  · intro h
    have hlen : ns.length = 0 ∨ ew.length = 0 ∨ ud.length = 0 := by
      rcases h with rfl | rfl | rfl
      · left; rfl
      · right; left; rfl
      · right; right; rfl
    unfold calc_peak_totalE
    split_ifs with h1 h2 h3
    · rfl
    · exfalso
      apply h3
      rcases hlen with h0 | h0 | h0
      · exact bcastLen_zero_pair (Or.inl (bcastLen_zero_pair (Or.inl h0) h1)) h2
      · exact bcastLen_zero_pair (Or.inl (bcastLen_zero_pair (Or.inr h0) h1)) h2
      · exact bcastLen_zero_pair (Or.inr h0) h2
    · rfl
    · rfl
  · intro hn hm hu hne
    unfold calc_peak_totalE
    split_ifs with h1 h2 h3
    · rfl
    · exfalso
      unfold bcastOK at h1 h2
      unfold bcastLen at h2
      split_ifs at h2 <;> omega
    · rfl
    · rfl

/-- Witness for the amended C8 at concrete inputs: the empty series, the
length pair (2, 3), and the length triple (2, 2, 3). -/
theorem peak_ops_error_cases_witness :
    calc_signed_peakE ([] : List ℝ) = Except.error ErrorKind.invalidInput
    ∧ calc_peak_horizontalE [(1 : ℝ), 2] [1, 2, 3] =
        Except.error ErrorKind.invalidInput
    ∧ calc_peak_totalE [(1 : ℝ), 2] [1, 2] [1, 2, 3] =
        Except.error ErrorKind.invalidInput :=
  ⟨(peak_ops_error_cases [] [1] [1] [1]).1 rfl,
    (peak_ops_error_cases [] [(1 : ℝ), 2] [1, 2, 3] [1]).2.2.1
      (by simp) (by simp) (by simp),
    (peak_ops_error_cases [] [(1 : ℝ), 2] [1, 2] [1, 2, 3]).2.2.2.2
      (by simp) (by simp) (by simp) (by simp)⟩
